import Mathlib

/-
Verification of the semasync Semaphore core (src/Semaphore.ts).

The state machine of the Semaphore class is embedded shallowly: the private
fields become a record, the wait queue is a list of entries carrying an
identity that stands for the JS object identity of the QueueEntry, and every
resolve/reject invocation on a pending promise is recorded in an event log.
Synchronously thrown errors are returned alongside the (possibly partially
mutated) state, exactly as a JS throw leaves earlier mutations in place.
-/

namespace Semasync

/-- One entry of the semaphore wait queue, translated from the QueueEntry record
in src/Semaphore.ts.  The resolve and reject callbacks of the underlying promise
are represented by the entry identity `id`; invoking them is recorded in the
event log. -/
structure QueueEntry where
  id : Nat
  requested : Nat
  acquired : Nat
deriving DecidableEq, Repr

/-- The private fields of the Semaphore class: pool size, available permits and
the FIFO queue.  `counter` supplies fresh identities for queue entries. -/
structure SemState where
  size : Nat
  available : Nat
  queue : List QueueEntry
  counter : Nat
deriving DecidableEq, Repr

/-- Rejection reasons used by the implementation (the messages of the thrown
Error values on the asynchronous rejection paths). -/
inductive Reason where
  | aborted
  | timedOut
  | cleared
  | tooLargeForResize
deriving DecidableEq, Repr

/-- Observable promise settlements: resolve(value) and reject(reason) calls on
the promise of a queue entry. -/
inductive Event where
  | resolved (id : Nat) (value : Nat)
  | rejected (id : Nat) (reason : Reason)
deriving DecidableEq, Repr

/-- Synchronously thrown errors. -/
inductive SemError where
  | invalidArgument
  | overRelease
deriving DecidableEq, Repr

/-- The constructor: available = size, empty queue. -/
def initSem (size : Nat) : SemState :=
  { size := size, available := size, queue := [], counter := 0 }

/-- The identities of the queued entries, in queue order. -/
def idsOf (q : List QueueEntry) : List Nat := q.map QueueEntry.id

/-- The derived waiting getter: the sum over the queue of requested - acquired. -/
def waiting (s : SemState) : Nat :=
  (s.queue.map (fun e => e.requested - e.acquired)).sum

/-- The private single-grant dispatch step, method next: if a permit is
available and the queue is non-empty, reserve one permit for the head entry;
when the head then holds all its requested permits it is dequeued and its
promise resolved with the requested count.  This is a single conditional step,
not a loop. -/
def next (s : SemState) : SemState × List Event :=
  match s.available, s.queue with
  | 0, _ => (s, [])
  | _ + 1, [] => (s, [])
  | a + 1, e :: rest =>
    if e.acquired + 1 = e.requested then
      ({ s with available := a, queue := rest }, [Event.resolved e.id e.requested])
    else
      ({ s with available := a,
                queue := { e with acquired := e.acquired + 1 } :: rest }, [])

/-- Iterated dispatch, used by the resize path which calls the dispatch step in
a counted loop. -/
def nextIter : Nat → SemState → SemState × List Event
  | 0, s => (s, [])
  | k + 1, s =>
    let r := next s
    let r2 := nextIter k r.1
    (r2.1, r.2 ++ r2.2)

/-- The private single release: throws OverRelease when all permits are already
available, otherwise increments available and runs one dispatch step. -/
def releaseUnit (s : SemState) : (SemState × List Event) × Option SemError :=
  if s.available = s.size then ((s, []), some SemError.overRelease)
  else
    let r := next { s with available := s.available + 1 }
    ((r.1, r.2), none)

/-- The counted loop in release; a throw aborts the loop, keeping the effects
of the earlier iterations in place. -/
def releaseLoop : Nat → SemState → (SemState × List Event) × Option SemError
  | 0, s => ((s, []), none)
  | k + 1, s =>
    match releaseUnit s with
    | (r, some err) => (r, some err)
    | (r, none) =>
      let r2 := releaseLoop k r.1
      ((r2.1.1, r.2 ++ r2.1.2), r2.2)

/-- release(count): validates that count is a positive integer not exceeding
the pool size, then performs count unit releases. -/
def release (count : Nat) (s : SemState) : (SemState × List Event) × Option SemError :=
  if 1 ≤ count ∧ count ≤ s.size then releaseLoop count s
  else ((s, []), some SemError.invalidArgument)

/-- splice(indexOf(entry), 1): remove the first queue entry with the given
identity. -/
def removeEntry (i : Nat) : List QueueEntry → List QueueEntry
  | [] => []
  | e :: rest => if e.id = i then rest else e :: removeEntry i rest

/-- The effect of invoking reject(reason) on the promise of a queued entry: the
catch continuation installed by the private acquire splices the entry out of
the queue and, only when acquired equals requested, releases the acquired
permits back.  Rejecting an entry that is no longer queued corresponds to
rejecting an already settled promise, a no-op. -/
def rejectEntry (i : Nat) (reason : Reason) (s : SemState) : SemState × List Event :=
  match s.queue.find? (fun e => decide (e.id = i)) with
  | none => (s, [])
  | some e =>
    let s1 : SemState := { s with queue := removeEntry i s.queue }
    if e.acquired = e.requested then
      let r := release e.acquired s1
      (r.1.1, Event.rejected i reason :: r.1.2)
    else
      (s1, [Event.rejected i reason])

/-- Reject a list of entry identities in order: the forEach scan in the size
setter and the for-of loop in clearQueue. -/
def rejectIds (reason : Reason) : List Nat → SemState → SemState × List Event
  | [], s => (s, [])
  | i :: rest, s =>
    let r := rejectEntry i reason s
    let r2 := rejectIds reason rest r.1
    (r2.1, r.2 ++ r2.2)

/-- clearQueue(): reject every currently queued entry with reason cleared. -/
def clearQueue (s : SemState) : SemState × List Event :=
  rejectIds Reason.cleared (idsOf s.queue) s

/-- acquire(count): after validation, push a fresh entry with acquired = 0 and
run exactly one dispatch step. -/
def acquireOp (count : Nat) (s : SemState) : (SemState × List Event) × Option SemError :=
  if 1 ≤ count ∧ count ≤ s.size then
    let e : QueueEntry := { id := s.counter, requested := count, acquired := 0 }
    let r := next { s with queue := s.queue ++ [e], counter := s.counter + 1 }
    ((r.1, r.2), none)
  else ((s, []), some SemError.invalidArgument)

/-- The first half of the size setter: compute nextCount from the current
waiting sum, clamp available at zero, store the new size, then run nextCount
dispatch steps. -/
def growDispatch (newSize : Nat) (s : SemState) : SemState × List Event :=
  let nextCount := if s.available = 0 ∧ s.size < newSize
                   then min (waiting s) (newSize - s.size) else 0
  let avail : Nat := (max 0 ((s.available : Int) + (newSize : Int) - (s.size : Int))).toNat
  nextIter nextCount { s with available := avail, size := newSize }

/-- The size setter: validation, growth dispatch, then the scan rejecting every
still-queued entry whose requested count exceeds the new size. -/
def setSize (newSize : Nat) (s : SemState) : (SemState × List Event) × Option SemError :=
  if newSize = 0 then ((s, []), some SemError.invalidArgument)
  else
    let r1 := growDispatch newSize s
    let tooLarge := idsOf (r1.1.queue.filter (fun e => decide (r1.1.size < e.requested)))
    let r2 := rejectIds Reason.tooLargeForResize tooLarge r1.1
    ((r2.1, r1.2 ++ r2.2), none)

/-- The observable operations on one semaphore: the public methods together
with the firing of a cancellation source (abort event or expired timer)
against a pending entry. -/
inductive Op where
  | acquire (count : Nat)
  | release (count : Nat)
  | setSize (newSize : Nat)
  | clearQueue
  | cancel (i : Nat) (reason : Reason)
deriving DecidableEq, Repr

def applyOp (op : Op) (s : SemState) : (SemState × List Event) × Option SemError :=
  match op with
  | Op.acquire c => acquireOp c s
  | Op.release c => release c s
  | Op.setSize n => setSize n s
  | Op.clearQueue => (clearQueue s, none)
  | Op.cancel i r => (rejectEntry i r s, none)

def stepState (s : SemState) (op : Op) : SemState := (applyOp op s).1.1

/-- Run a sequence of operations from a freshly constructed semaphore. -/
def runOps (size : Nat) (ops : List Op) : SemState :=
  ops.foldl stepState (initSem size)

/-- Run a sequence of operations, also accumulating the event log. -/
def runOpsEv (size : Nat) (ops : List Op) : SemState × List Event :=
  ops.foldl (fun acc op => ((applyOp op acc.1).1.1, acc.2 ++ (applyOp op acc.1).1.2))
    (initSem size, [])

/-- Well-formedness of one queue entry relative to the pool size and the id
counter: validated request count, still unsatisfied, identity already issued. -/
def EntryOK (size counter : Nat) (e : QueueEntry) : Prop :=
  1 ≤ e.requested ∧ e.acquired < e.requested ∧ e.requested ≤ size ∧ e.id < counter

instance (size counter : Nat) (e : QueueEntry) : Decidable (EntryOK size counter e) :=
  inferInstanceAs (Decidable (_ ∧ _ ∧ _ ∧ _))

/-- The states the implementation can reach: positive pool size, available
within the pool, every queued entry validated and still unsatisfied, distinct
entry identities. -/
def WF (s : SemState) : Prop :=
  1 ≤ s.size ∧ s.available ≤ s.size ∧ (∀ e ∈ s.queue, EntryOK s.size s.counter e) ∧
    (idsOf s.queue).Nodup

instance (s : SemState) : Decidable (WF s) :=
  inferInstanceAs (Decidable (_ ∧ _ ∧ _ ∧ _))

/- ------------------------------------------------------------------ -/
/- The exec wrapper, lines 301-325 of src/Semaphore.ts.                -/
/- ------------------------------------------------------------------ -/

/-- The asynchronous failure modes of acquire, plus the synchronous validation
throw. -/
inductive AcqFailure where
  | aborted
  | timedOut
  | cleared
  | tooLargeForResize
  | invalidArgument
deriving DecidableEq, Repr

/-- What awaiting acquire produced. -/
inductive AcquireOutcome where
  | granted (value : Nat)
  | failed (fail : AcqFailure)
deriving DecidableEq, Repr

/-- What running the caller task produced. -/
inductive TaskOutcome (T E : Type) where
  | value (v : T)
  | raised (err : E)

/-- What the exec wrapper delivers to its caller. -/
inductive ExecOutcome (T E : Type) where
  | value (v : T)
  | taskError (err : E)
  | acquireFailed (fail : AcqFailure)

/-- The control skeleton of exec: await acquire; on failure propagate the
acquisition failure without releasing; on success run the task inside a
try/finally with release(count) in the finally clause, then propagate the task
outcome unchanged.  The second component records the release(count) calls made,
in order. -/
def exec {T E : Type} (count : Nat) (acq : AcquireOutcome) (task : TaskOutcome T E) :
    ExecOutcome T E × List Nat :=
  match acq with
  | AcquireOutcome.failed r => (ExecOutcome.acquireFailed r, [])
  | AcquireOutcome.granted _ =>
    match task with
    | TaskOutcome.value v => (ExecOutcome.value v, [count])
    | TaskOutcome.raised e => (ExecOutcome.taskError e, [count])

/- ------------------------------------------------------------------ -/
/- Cancellation wiring of the private acquire, lines 237-253.          -/
/- ------------------------------------------------------------------ -/

/-- The external abort-signal capability consumed by acquire.  The only
observable is the time of its single abort transition, if any; the subscribing
acquire call happens at time 0, so a negative time means the signal had already
aborted before the call. -/
structure AbortSignalModel where
  abortTime : Option Int
deriving DecidableEq, Repr

/-- The signal was already aborted before the acquire call. -/
def alreadyAborted (sig : AbortSignalModel) : Prop :=
  ∃ t, sig.abortTime = some t ∧ t < 0

/-- An abort listener added at subscription time 0, as the private acquire
does, is invoked exactly when the abort transition happens at or after the
subscription.  The implementation only adds this listener; it never reads the
current aborted flag of the signal. -/
def abortListenerFires (sig : AbortSignalModel) : Prop :=
  ∃ t, sig.abortTime = some t ∧ 0 ≤ t

/-- The rejection sources a pending acquire can be cancelled by. -/
inductive RejectTrigger where
  | abortEvent
  | timer (ms : Nat)
deriving DecidableEq, Repr

/-- The rejection sources wired by the private acquire: an abort listener when
a signal is supplied, and a timeout timer when timeoutMs is supplied. -/
def acquireTriggers (sig : Option AbortSignalModel) (timeoutMs : Option Nat) :
    List RejectTrigger :=
  (match sig with
   | some _ => [RejectTrigger.abortEvent]
   | none => []) ++
  (match timeoutMs with
   | some t => [RejectTrigger.timer t]
   | none => [])

/-- Whether a wired rejection source ever fires. -/
def triggerFires (sig : Option AbortSignalModel) : RejectTrigger → Prop
  | RejectTrigger.abortEvent =>
    (match sig with
     | some g => abortListenerFires g
     | none => False)
  | RejectTrigger.timer _ => True

/-- A pending acquire can be rejected with reason aborted exactly when an abort
trigger was wired and fires. -/
def canRejectAborted (sig : Option AbortSignalModel) (timeoutMs : Option Nat) : Prop :=
  RejectTrigger.abortEvent ∈ acquireTriggers sig timeoutMs ∧
    triggerFires sig RejectTrigger.abortEvent

/-- Concrete state for Scenario D of the specification: size 9, exhausted, with
pending requests for 8 and for 5 permits. -/
def scenarioD : SemState :=
  { size := 9, available := 0,
    queue := [{ id := 0, requested := 8, acquired := 0 },
              { id := 1, requested := 5, acquired := 0 }],
    counter := 2 }

/-- Concrete exhausted state with one pending single-permit request, used to
instantiate the resize-growth property. -/
def growState : SemState :=
  { size := 1, available := 0,
    queue := [{ id := 0, requested := 1, acquired := 0 }], counter := 1 }

/-- No resolution event for entry identity B occurs in the log. -/
def NoResolve (B : Nat) (evs : List Event) : Prop := ∀ v, Event.resolved B v ∉ evs

/-- A permit went to the entry with identity B during an operation that took
state s to result r: either B is still queued with a strictly larger acquired
count, or B was resolved. -/
def grantedDuring (B : Nat) (s : SemState) (r : SemState × List Event) : Prop :=
  (∃ e0 ∈ s.queue, ∃ e1 ∈ r.1.queue,
      e0.id = B ∧ e1.id = B ∧ e0.acquired < e1.acquired) ∨
  (∃ v, Event.resolved B v ∈ r.2)

/-- The queue portion of well-formedness used in the FIFO proof: entries still
unsatisfied, identities below the counter and distinct. -/
def QInv (s : SemState) : Prop :=
  (∀ e ∈ s.queue, e.acquired < e.requested) ∧
    (∀ e ∈ s.queue, e.id < s.counter) ∧ (idsOf s.queue).Nodup

/-- Head-of-line tracking for the pair (A, entry e0): either e0 is still queued
unchanged with A somewhere strictly ahead of it and never resolved, or e0 left
the queue without being resolved, or A left the queue. -/
def C7Pack (A : Nat) (e0 : QueueEntry) (s : SemState) (evs : List Event) : Prop :=
  A < s.counter ∧ e0.id < s.counter ∧
    ((∃ q1 q2, s.queue = q1 ++ e0 :: q2 ∧ A ∈ idsOf q1 ∧ NoResolve e0.id evs) ∨
     (e0.id ∉ idsOf s.queue ∧ NoResolve e0.id evs) ∨
     A ∉ idsOf s.queue)

/-- Concrete state instantiating the FIFO property: the head holds one of its
two permits, a single-permit request waits behind it. -/
def fifoState : SemState :=
  { size := 2, available := 0,
    queue := [{ id := 0, requested := 2, acquired := 1 },
              { id := 1, requested := 1, acquired := 0 }], counter := 2 }

/-- The enqueue half of acquire: push a fresh entry and bump the id counter. -/
def pushState (count : Nat) (s : SemState) : SemState :=
  { s with
      queue := s.queue ++ [{ id := s.counter, requested := count, acquired := 0 }],
      counter := s.counter + 1 }

/- ================================================================== -/
/- Theorems                                                            -/
/- ================================================================== -/

/-- Claim C1 (code behaviour at the failing input): on Semaphore(3), an
acquire(2) is enqueued and receives one permit; clearQueue then rejects it.
The entry is removed, no resolution ever happened, yet available stays at 2:
the single reserved permit is not returned, because the return-on-rejection
branch only fires when acquired equals requested.  The claim requires available
to come back to 3. -/
theorem C1_rejection_leaks_permit :
    runOpsEv 3 [Op.acquire 2, Op.clearQueue] =
      ({ size := 3, available := 2, queue := [], counter := 1 },
       [Event.rejected 0 Reason.cleared]) := rfl

/-- Claim C2 (counterexample): on Semaphore(3) with an empty queue and
available = 3 ≥ 2, acquire(2) reserves only a single permit and its promise is
not resolved (no event is emitted), contradicting the claim that all count
permits are reserved in that same dispatch and the future resolves with count. -/
theorem C2_counterexample :
    runOpsEv 3 [Op.acquire 2] =
      ({ size := 3, available := 2,
         queue := [{ id := 0, requested := 2, acquired := 1 }], counter := 1 },
       []) := rfl

/-- Claim C2 (amended): the dispatch step grants at most one permit per
invocation and acquire invokes it exactly once at enqueue; hence an
acquire(count) issued with the queue empty and available ≥ count reserves
exactly one permit, resolving immediately with count if and only if count is
1; for count > 1 the entry stays queued with acquired = 1. -/
theorem C2_single_step_enqueue (s : SemState) (count : Nat) (h1 : 1 ≤ count)
    (hc : count ≤ s.size) (hq : s.queue = []) (ha : count ≤ s.available) :
    (count = 1 → acquireOp count s =
      (({ s with available := s.available - 1, queue := [], counter := s.counter + 1 },
        [Event.resolved s.counter 1]), none)) ∧
    (1 < count → acquireOp count s =
      (({ s with
            available := s.available - 1,
            queue := [{ id := s.counter, requested := count, acquired := 1 }],
            counter := s.counter + 1 }, []), none)) := by
  have hpos : 0 < s.available := lt_of_lt_of_le h1 ha
  obtain ⟨a, havail⟩ : ∃ a, s.available = a + 1 :=
    ⟨s.available - 1, by omega⟩
  constructor
  · intro hcount
    subst hcount
    simp [acquireOp, h1, hc, hq, next, havail]
  · intro hcount
    have hne : ¬ (0 + 1 = count) := by omega
    simp [acquireOp, h1, hc, hq, next, havail, hne]

/-- Claim C4: release(count) throws InvalidArgument unless count is a positive
integer not exceeding the capacity, and throws OverRelease when called while
available equals capacity, leaving the state unchanged in both cases. -/
theorem C4_release_errors (s : SemState) (count : Nat) :
    (¬ (1 ≤ count ∧ count ≤ s.size) →
      release count s = ((s, []), some SemError.invalidArgument)) ∧
    (1 ≤ count → count ≤ s.size → s.available = s.size →
      release count s = ((s, []), some SemError.overRelease)) := by
  constructor
  · intro h
    simp [release, h]
  · intro h1 h2 hfull
    obtain ⟨k, rfl⟩ : ∃ k, count = k + 1 := ⟨count - 1, by omega⟩
    simp [release, h1, h2, releaseLoop, releaseUnit, hfull]

/-- Claim C4 (witness): release(1) on a fresh Semaphore(1), where available
equals capacity, fails with OverRelease. -/
theorem C4_release_errors_witness :
    release 1 (initSem 1) = ((initSem 1, []), some SemError.overRelease) :=
  (C4_release_errors (initSem 1) 1).2 (by decide) (by decide) (by decide)

/-- Claim C8: exec awaits the acquisition; on acquisition success it runs the
task and calls release(count) exactly once whether the task returns or raises,
propagating the task outcome unchanged; on acquisition failure release is never
called and the acquisition failure propagates. -/
theorem C8_exec_release_discipline (T E : Type) (count n : Nat) (r : AcqFailure)
    (v : T) (e : E) :
    exec count (AcquireOutcome.failed r) (@TaskOutcome.value T E v) =
      (ExecOutcome.acquireFailed r, []) ∧
    exec count (AcquireOutcome.failed r) (@TaskOutcome.raised T E e) =
      (ExecOutcome.acquireFailed r, []) ∧
    exec count (AcquireOutcome.granted n) (@TaskOutcome.value T E v) =
      (ExecOutcome.value v, [count]) ∧
    exec count (AcquireOutcome.granted n) (@TaskOutcome.raised T E e) =
      (ExecOutcome.taskError e, [count]) :=
  ⟨rfl, rfl, rfl, rfl⟩

/- Basic facts about the dispatch step. -/

theorem next_size (s : SemState) : (next s).1.size = s.size := by
  obtain ⟨sz, a, q, c⟩ := s
  cases a with
  | zero => rfl
  | succ a =>
    cases q with
    | nil => rfl
    | cons e rest =>
      by_cases h : e.acquired + 1 = e.requested <;> simp [next, h]

theorem next_counter (s : SemState) : (next s).1.counter = s.counter := by
  obtain ⟨sz, a, q, c⟩ := s
  cases a with
  | zero => rfl
  | succ a =>
    cases q with
    | nil => rfl
    | cons e rest =>
      by_cases h : e.acquired + 1 = e.requested <;> simp [next, h]

theorem next_avail_le (s : SemState) : (next s).1.available ≤ s.available := by
  obtain ⟨sz, a, q, c⟩ := s
  cases a with
  | zero => exact le_refl _
  | succ a =>
    cases q with
    | nil => exact le_refl _
    | cons e rest =>
      by_cases h : e.acquired + 1 = e.requested <;> simp [next, h] <;> omega

theorem next_queue_nil (s : SemState) (hq : s.queue = []) : next s = (s, []) := by
  obtain ⟨sz, a, q, c⟩ := s
  simp only at hq
  subst hq
  cases a <;> rfl

/- Preservation of available ≤ size by every primitive and every operation. -/

theorem availLe_next (s : SemState) (h : s.available ≤ s.size) :
    (next s).1.available ≤ (next s).1.size := by
  rw [next_size]
  exact le_trans (next_avail_le s) h

theorem availLe_nextIter : ∀ (k : Nat) (s : SemState), s.available ≤ s.size →
    (nextIter k s).1.available ≤ (nextIter k s).1.size := by
  intro k
  induction k with
  | zero => intro s h; exact h
  | succ k ih =>
    intro s h
    simpa [nextIter] using ih (next s).1 (availLe_next s h)

theorem availLe_releaseUnit (s : SemState) (h : s.available ≤ s.size) :
    (releaseUnit s).1.1.available ≤ (releaseUnit s).1.1.size := by
  unfold releaseUnit
  by_cases hf : s.available = s.size
  · simpa [hf] using le_refl s.size
  · have h1 : ({ s with available := s.available + 1 } : SemState).available ≤
        ({ s with available := s.available + 1 } : SemState).size := by
      simp
      omega
    simpa [hf] using availLe_next _ h1

theorem availLe_releaseLoop : ∀ (k : Nat) (s : SemState), s.available ≤ s.size →
    (releaseLoop k s).1.1.available ≤ (releaseLoop k s).1.1.size := by
  intro k
  induction k with
  | zero => intro s h; exact h
  | succ k ih =>
    intro s h
    have hu := availLe_releaseUnit s h
    unfold releaseLoop
    rcases hr : releaseUnit s with ⟨⟨s1, evs⟩, err⟩
    rw [hr] at hu
    cases err with
    | none => simpa [hr] using ih s1 hu
    | some e => simpa [hr] using hu

theorem availLe_release (count : Nat) (s : SemState) (h : s.available ≤ s.size) :
    (release count s).1.1.available ≤ (release count s).1.1.size := by
  unfold release
  by_cases hv : 1 ≤ count ∧ count ≤ s.size
  · simpa [hv] using availLe_releaseLoop count s h
  · simpa [hv] using h

theorem availLe_rejectEntry (i : Nat) (r : Reason) (s : SemState)
    (h : s.available ≤ s.size) :
    (rejectEntry i r s).1.available ≤ (rejectEntry i r s).1.size := by
  unfold rejectEntry
  rcases hf : s.queue.find? (fun e => decide (e.id = i)) with _ | e
  · simpa [hf] using h
  · have h1 : ({ s with queue := removeEntry i s.queue } : SemState).available ≤
        ({ s with queue := removeEntry i s.queue } : SemState).size := h
    by_cases he : e.acquired = e.requested
    · simpa [hf, he] using availLe_release e.acquired _ h1
    · simpa [hf, he] using h1

theorem availLe_rejectIds : ∀ (L : List Nat) (r : Reason) (s : SemState),
    s.available ≤ s.size →
    (rejectIds r L s).1.available ≤ (rejectIds r L s).1.size := by
  intro L
  induction L with
  | nil => intro r s h; exact h
  | cons i rest ih =>
    intro r s h
    simpa [rejectIds] using ih r (rejectEntry i r s).1 (availLe_rejectEntry i r s h)

theorem availLe_acquireOp (count : Nat) (s : SemState) (h : s.available ≤ s.size) :
    (acquireOp count s).1.1.available ≤ (acquireOp count s).1.1.size := by
  unfold acquireOp
  by_cases hv : 1 ≤ count ∧ count ≤ s.size
  · have h1 : ({ s with
        queue := s.queue ++ [{ id := s.counter, requested := count, acquired := 0 }],
        counter := s.counter + 1 } : SemState).available ≤
        ({ s with
            queue := s.queue ++ [{ id := s.counter, requested := count, acquired := 0 }],
            counter := s.counter + 1 } : SemState).size := h
    simpa [hv] using availLe_next _ h1
  · simpa [hv] using h

theorem availLe_growDispatch (n : Nat) (s : SemState) (h : s.available ≤ s.size) :
    (growDispatch n s).1.available ≤ (growDispatch n s).1.size := by
  unfold growDispatch
  apply availLe_nextIter
  simp
  omega

theorem availLe_setSize (n : Nat) (s : SemState) (h : s.available ≤ s.size) :
    (setSize n s).1.1.available ≤ (setSize n s).1.1.size := by
  unfold setSize
  by_cases hn : n = 0
  · simpa [hn] using h
  · simpa [hn] using availLe_rejectIds _ _ _ (availLe_growDispatch n s h)

theorem availLe_stepState (op : Op) (s : SemState) (h : s.available ≤ s.size) :
    (stepState s op).available ≤ (stepState s op).size := by
  cases op with
  | acquire c => exact availLe_acquireOp c s h
  | release c => exact availLe_release c s h
  | setSize n => exact availLe_setSize n s h
  | clearQueue => exact availLe_rejectIds _ _ _ h
  | cancel i r => exact availLe_rejectEntry i r s h

theorem availLe_foldl : ∀ (ops : List Op) (s : SemState), s.available ≤ s.size →
    (ops.foldl stepState s).available ≤ (ops.foldl stepState s).size := by
  intro ops
  induction ops with
  | nil => intro s h; exact h
  | cons op rest ih =>
    intro s h
    exact ih (stepState s op) (availLe_stepState op s h)

/-- Claim C3: for every sequence of operations starting from a validly
constructed semaphore, the invariant 0 ≤ available ≤ capacity holds on the
resulting state (hence at every observation point between operations, since
the operation lists range over all prefixes). -/
theorem C3_available_bounds (size : Nat) (ops : List Op) (hsize : 1 ≤ size) :
    0 ≤ (runOps size ops).available ∧
      (runOps size ops).available ≤ (runOps size ops).size :=
  ⟨Nat.zero_le _, availLe_foldl ops (initSem size) (le_refl size)⟩

/-- Claim C3 (witness): the invariant instantiated on a concrete run mixing
acquire, release, resize and clearQueue. -/
theorem C3_available_bounds_witness :
    0 ≤ (runOps 3 [Op.acquire 2, Op.release 1, Op.setSize 5, Op.clearQueue]).available ∧
      (runOps 3 [Op.acquire 2, Op.release 1, Op.setSize 5, Op.clearQueue]).available ≤
        (runOps 3 [Op.acquire 2, Op.release 1, Op.setSize 5, Op.clearQueue]).size :=
  C3_available_bounds 3 [Op.acquire 2, Op.release 1, Op.setSize 5, Op.clearQueue]
    (by decide)

/- Claim C10: the unit-release loop on an empty queue. -/

theorem releaseLoop_empty_overflow : ∀ (k : Nat) (s : SemState), s.queue = [] →
    s.available ≤ s.size → s.size < s.available + k →
    releaseLoop k s = (({ s with available := s.size }, []), some SemError.overRelease) := by
  intro k
  induction k with
  | zero =>
    intro s hq h2 h3
    omega
  | succ k ih =>
    intro s hq h2 h3
    by_cases hf : s.available = s.size
    · have hs : ({ s with available := s.size } : SemState) = s := by
        obtain ⟨sz, a, q, c⟩ := s
        simp only at hf
        simp [hf]
      unfold releaseLoop releaseUnit
      simp [hf, hs]
    · have hlt : s.available < s.size := lt_of_le_of_ne h2 hf
      have hnext : next { s with available := s.available + 1 } =
          ({ s with available := s.available + 1 }, []) :=
        next_queue_nil _ (by simpa using hq)
      have hrec := ih { s with available := s.available + 1 }
        (by simpa using hq) (by simp; omega) (by simp; omega)
      unfold releaseLoop releaseUnit
      simp [hf, hnext, hrec]

/-- Claim C10 (counterexample): a reachable state on which the claim as stated
fails.  On Semaphore(2) a pending acquire(2) holds one reserved permit, so
available = 1, and release(2) satisfies 2 ≤ capacity and available + 2 >
capacity; yet release(2) does not throw OverRelease, because the dispatch step
after each unit increment hands the permit to the pending request instead of
letting available reach capacity. -/
theorem C10_counterexample :
    WF (runOps 2 [Op.acquire 2]) ∧
    (runOps 2 [Op.acquire 2]).queue ≠ [] ∧
    2 ≤ (runOps 2 [Op.acquire 2]).size ∧
    (runOps 2 [Op.acquire 2]).size < (runOps 2 [Op.acquire 2]).available + 2 ∧
    (release 2 (runOps 2 [Op.acquire 2])).2 = none := by decide

/-- Claim C10 (amended): release(count) is not atomic on failure when the queue
is empty: if count ≤ capacity but available + count > capacity, it increments
available one unit at a time (each dispatch step finds the empty queue and
grants nothing) until available reaches capacity and only then throws
OverRelease, leaving the earlier increments in place rather than rolling them
back. -/
theorem C10_release_not_atomic (s : SemState) (count : Nat) (hq : s.queue = [])
    (h1 : 1 ≤ count) (h2 : count ≤ s.size) (h3 : s.size < s.available + count)
    (h4 : s.available ≤ s.size) :
    release count s = (({ s with available := s.size }, []), some SemError.overRelease) := by
  unfold release
  simp only [h1, h2, and_self, if_pos]
  exact releaseLoop_empty_overflow count s hq h4 h3

/-- Claim C10 (witness for the amended claim): on a state with capacity 2,
available 1 and empty queue, release(2) performs one increment and then throws
OverRelease with available left at 2. -/
theorem C10_release_not_atomic_witness :
    release 2 { size := 2, available := 1, queue := [], counter := 0 } =
      (({ size := 2, available := 2, queue := [], counter := 0 }, []),
        some SemError.overRelease) :=
  C10_release_not_atomic { size := 2, available := 1, queue := [], counter := 0 } 2
    rfl (by decide) (by decide) (by decide) (by decide)

/- Facts about find?, removeEntry and entry identities. -/

theorem find?_some_of_mem_ids : ∀ (q : List QueueEntry) (i : Nat), i ∈ idsOf q →
    ∃ e, q.find? (fun e => decide (e.id = i)) = some e ∧ e ∈ q ∧ e.id = i := by
  intro q
  induction q with
  | nil => intro i hi; simp [idsOf] at hi
  | cons e rest ih =>
    intro i hi
    by_cases he : e.id = i
    · exact ⟨e, by simp [List.find?, he], List.mem_cons_self e rest, he⟩
    · have hi2 : i ∈ idsOf rest := by
        simp [idsOf] at hi ⊢
        rcases hi with h | h
        · exact absurd h.symm he
        · exact h
      obtain ⟨e2, hf, hm, hid⟩ := ih i hi2
      exact ⟨e2, by simp [List.find?, he, hf], List.mem_cons_of_mem e hm, hid⟩

theorem removeEntry_sublist : ∀ (q : List QueueEntry) (i : Nat),
    List.Sublist (removeEntry i q) q := by
  intro q i
  induction q with
  | nil => simp [removeEntry]
  | cons e rest ih =>
    by_cases he : e.id = i
    · simpa [removeEntry, he] using List.sublist_cons_self e rest
    · simpa [removeEntry, he] using List.Sublist.cons₂ e ih

theorem removeEntry_eq_filter : ∀ (q : List QueueEntry), (idsOf q).Nodup → ∀ (i : Nat),
    removeEntry i q = q.filter (fun e => !decide (e.id = i)) := by
  intro q
  induction q with
  | nil => intro _ i; rfl
  | cons e rest ih =>
    intro hnd i
    have hnd2 : e.id ∉ rest.map QueueEntry.id ∧ (rest.map QueueEntry.id).Nodup := by
      simpa [idsOf, List.nodup_cons] using hnd
    by_cases he : e.id = i
    · have hfilter : rest.filter (fun x => !decide (x.id = i)) = rest := by
        apply List.filter_eq_self.mpr
        intro x hx
        simp
        intro hxi
        apply hnd2.1
        rw [he, ← hxi]
        exact List.mem_map_of_mem QueueEntry.id hx
      simp [removeEntry, he, hfilter]
    · simp [removeEntry, he, ih (by simpa [idsOf] using hnd2.2) i]

theorem entries_inj (q : List QueueEntry) (hnd : (idsOf q).Nodup)
    (e1 e2 : QueueEntry) (h1 : e1 ∈ q) (h2 : e2 ∈ q) (hid : e1.id = e2.id) :
    e1 = e2 :=
  List.inj_on_of_nodup_map hnd h1 h2 hid

/- The net effect of a batch of rejections on a well-behaved queue: every
listed entry is removed with one rejection event, nothing else changes, and no
permits move because the release-back branch requires acquired = requested,
which never holds for a queued entry. -/

theorem rejectIds_spec : ∀ (L : List Nat) (r : Reason) (s : SemState),
    (∀ e ∈ s.queue, e.acquired ≠ e.requested) → (idsOf s.queue).Nodup →
    (∀ i ∈ L, i ∈ idsOf s.queue) → L.Nodup →
    rejectIds r L s =
      ({ s with queue := s.queue.filter (fun e => decide (e.id ∉ L)) },
       L.map (fun i => Event.rejected i r)) := by
  intro L
  induction L with
  | nil =>
    intro r s _ _ _ _
    have hq : s.queue.filter (fun e => decide (e.id ∉ ([] : List Nat))) = s.queue :=
      List.filter_eq_self.mpr (fun a _ => by simp)
    simp [rejectIds, hq]
  | cons i rest ih =>
    intro r s hp hnd hL hLnd
    obtain ⟨e, hfind, hmem, hid⟩ := find?_some_of_mem_ids s.queue i
      (hL i (List.mem_cons_self i rest))
    have hne : ¬ e.acquired = e.requested := hp e hmem
    have hrm : removeEntry i s.queue = s.queue.filter (fun x => !decide (x.id = i)) :=
      removeEntry_eq_filter s.queue hnd i
    have hsub : List.Sublist (s.queue.filter (fun x => !decide (x.id = i))) s.queue :=
      List.filter_sublist s.queue
    have hih := ih r { s with queue := s.queue.filter (fun x => !decide (x.id = i)) }
      (fun x hx => hp x (hsub.subset hx))
      ((List.Sublist.map QueueEntry.id hsub).nodup hnd)
      (by
        intro j hj
        have hj1 : j ∈ idsOf s.queue := hL j (List.mem_cons_of_mem i hj)
        have hji : ¬ j = i := by
          intro h
          subst h
          exact (List.nodup_cons.mp hLnd).1 hj
        obtain ⟨ej, hfj, hmj, hidj⟩ := find?_some_of_mem_ids s.queue j hj1
        have : ej ∈ s.queue.filter (fun x => !decide (x.id = i)) := by
          apply List.mem_filter.mpr
          refine ⟨hmj, ?_⟩
          simp [hidj, hji]
        simpa [idsOf, ← hidj] using List.mem_map_of_mem QueueEntry.id this)
      (List.nodup_cons.mp hLnd).2
    unfold rejectIds rejectEntry
    rw [hfind]
    simp only [hne, if_false, hrm, hih]
    simp
    exact List.filter_congr (fun x _ => Bool.and_comm _ _)

/- Size, queue structure and invariant preservation along iterated dispatch. -/

theorem nextIter_size : ∀ (k : Nat) (s : SemState), (nextIter k s).1.size = s.size := by
  intro k
  induction k with
  | zero => intro s; rfl
  | succ k ih =>
    intro s
    simpa [nextIter, ih (next s).1] using next_size s

theorem growDispatch_size (n : Nat) (s : SemState) : (growDispatch n s).1.size = n := by
  unfold growDispatch
  rw [nextIter_size]

theorem unsat_next (s : SemState) (hp : ∀ e ∈ s.queue, e.acquired < e.requested) :
    ∀ e ∈ (next s).1.queue, e.acquired < e.requested := by
  obtain ⟨sz, a, q, c⟩ := s
  cases a with
  | zero => exact hp
  | succ a =>
    cases q with
    | nil => exact hp
    | cons e rest =>
      by_cases h : e.acquired + 1 = e.requested
      · intro x hx
        exact hp x (List.mem_cons_of_mem e (by simpa [next, h] using hx))
      · intro x hx
        simp [next, h] at hx
        rcases hx with hx | hx
        · subst hx
          have := hp e (List.mem_cons_self e rest)
          simp at this ⊢
          omega
        · exact hp x (List.mem_cons_of_mem e hx)

theorem unsat_nextIter : ∀ (k : Nat) (s : SemState),
    (∀ e ∈ s.queue, e.acquired < e.requested) →
    ∀ e ∈ (nextIter k s).1.queue, e.acquired < e.requested := by
  intro k
  induction k with
  | zero => intro s hp; exact hp
  | succ k ih =>
    intro s hp
    simpa [nextIter] using ih (next s).1 (unsat_next s hp)

theorem reqLe_next (s : SemState) (m : Nat) (hb : ∀ e ∈ s.queue, e.requested ≤ m) :
    ∀ e ∈ (next s).1.queue, e.requested ≤ m := by
  obtain ⟨sz, a, q, c⟩ := s
  cases a with
  | zero => exact hb
  | succ a =>
    cases q with
    | nil => exact hb
    | cons e rest =>
      by_cases h : e.acquired + 1 = e.requested
      · intro x hx
        exact hb x (List.mem_cons_of_mem e (by simpa [next, h] using hx))
      · intro x hx
        simp [next, h] at hx
        rcases hx with hx | hx
        · subst hx
          simpa using hb e (List.mem_cons_self e rest)
        · exact hb x (List.mem_cons_of_mem e hx)

theorem reqLe_nextIter : ∀ (k : Nat) (s : SemState) (m : Nat),
    (∀ e ∈ s.queue, e.requested ≤ m) →
    ∀ e ∈ (nextIter k s).1.queue, e.requested ≤ m := by
  intro k
  induction k with
  | zero => intro s m hb; exact hb
  | succ k ih =>
    intro s m hb
    simpa [nextIter] using ih (next s).1 m (reqLe_next s m hb)

theorem next_ids_sublist (s : SemState) :
    List.Sublist (idsOf (next s).1.queue) (idsOf s.queue) := by
  obtain ⟨sz, a, q, c⟩ := s
  cases a with
  | zero => exact List.Sublist.refl _
  | succ a =>
    cases q with
    | nil => exact List.Sublist.refl _
    | cons e rest =>
      by_cases h : e.acquired + 1 = e.requested
      · simpa [next, h, idsOf] using List.sublist_cons_self e.id (idsOf rest)
      · simp [next, h, idsOf]

theorem nextIter_ids_sublist : ∀ (k : Nat) (s : SemState),
    List.Sublist (idsOf (nextIter k s).1.queue) (idsOf s.queue) := by
  intro k
  induction k with
  | zero => intro s; exact List.Sublist.refl _
  | succ k ih =>
    intro s
    simpa [nextIter] using List.Sublist.trans (ih (next s).1) (next_ids_sublist s)

/-- Claim C5: after a resize to new size n, every entry still pending when the
scan runs (the queue of the growth-dispatch stage) whose requested count
exceeds n is rejected with TooLargeForResize and removed — even if partially
granted — while every still-pending entry with requested ≤ n remains queued
unchanged; and for a shrink (n ≤ old size) the scanned queue is exactly the
queue before the resize. -/
theorem C5_resize_rejects_oversized (s : SemState) (n : Nat) (hwf : WF s)
    (hn : 1 ≤ n) :
    (∀ e ∈ (growDispatch n s).1.queue, n < e.requested →
        Event.rejected e.id Reason.tooLargeForResize ∈ (setSize n s).1.2 ∧
        e.id ∉ idsOf (setSize n s).1.1.queue) ∧
    (∀ e ∈ (growDispatch n s).1.queue, e.requested ≤ n →
        e ∈ (setSize n s).1.1.queue) ∧
    (n ≤ s.size → (growDispatch n s).1.queue = s.queue) := by
  obtain ⟨hsz, hav, hok, hnd⟩ := hwf
  have hn0 : ¬ n = 0 := by omega
  have hp1 : ∀ e ∈ (growDispatch n s).1.queue, e.acquired < e.requested := by
    unfold growDispatch
    exact unsat_nextIter _ _ (fun e he => (hok e he).2.1)
  have hnd1 : (idsOf (growDispatch n s).1.queue).Nodup := by
    unfold growDispatch
    exact (nextIter_ids_sublist _ _).nodup hnd
  set s1 := (growDispatch n s).1 with hs1
  set tooLarge := idsOf (s1.queue.filter (fun e => decide (s1.size < e.requested)))
    with htl
  have hfsub : List.Sublist (s1.queue.filter (fun e => decide (s1.size < e.requested)))
      s1.queue := List.filter_sublist s1.queue
  have hspec := rejectIds_spec tooLarge Reason.tooLargeForResize s1
    (fun e he => Nat.ne_of_lt (hp1 e he))
    hnd1
    (fun i hi => (List.Sublist.map QueueEntry.id hfsub).subset hi)
    ((List.Sublist.map QueueEntry.id hfsub).nodup hnd1)
  have hsetSize : setSize n s =
      (({ s1 with queue := s1.queue.filter (fun e => decide (e.id ∉ tooLarge)) },
        (growDispatch n s).2 ++ tooLarge.map
          (fun i => Event.rejected i Reason.tooLargeForResize)), none) := by
    unfold setSize
    rw [if_neg hn0]
    simp only [← hs1, ← htl, hspec]
  have hsz1 : s1.size = n := by rw [hs1]; exact growDispatch_size n s
  have hchar : ∀ e ∈ s1.queue, (e.id ∈ tooLarge ↔ n < e.requested) := by
    intro e he
    constructor
    · intro hin
      rw [htl, idsOf] at hin
      obtain ⟨e2, he2, hide⟩ := List.mem_map.mp hin
      have he2q := List.mem_filter.mp he2
      have heq : e = e2 := entries_inj s1.queue hnd1 e e2 he he2q.1 hide.symm
      have hlt : s1.size < e2.requested := by simpa using he2q.2
      rw [heq, ← hsz1]
      exact hlt
    · intro hr
      rw [htl, idsOf]
      apply List.mem_map_of_mem
      apply List.mem_filter.mpr
      exact ⟨he, by simp [hsz1, hr]⟩
  refine ⟨?_, ?_, ?_⟩
  · intro e he hr
    have hid : e.id ∈ tooLarge := (hchar e he).mpr hr
    constructor
    · rw [hsetSize]
      exact List.mem_append.mpr (Or.inr (List.mem_map_of_mem _ hid))
    · rw [hsetSize]
      intro hmem
      simp only [idsOf] at hmem
      obtain ⟨e2, he2, hide⟩ := List.mem_map.mp hmem
      have he2f := List.mem_filter.mp he2
      have hnot : e2.id ∉ tooLarge := by simpa using he2f.2
      rw [hide] at hnot
      exact hnot hid
  · intro e he hr
    have hid : e.id ∉ tooLarge := fun h => absurd ((hchar e he).mp h) (by omega)
    rw [hsetSize]
    exact List.mem_filter.mpr ⟨he, by simpa using hid⟩
  · intro hle
    rw [hs1]
    unfold growDispatch
    have hcond : ¬ (s.available = 0 ∧ s.size < n) := by
      rintro ⟨_, h⟩
      omega
    rw [if_neg hcond]
    rfl

/-- Claim C5 (witness): Scenario D of the specification.  Size 9, available 0,
pending requests for 8 and for 5; shrinking to 7 rejects the request for 8
with TooLargeForResize and removes it, while the request for 5 remains queued. -/
theorem C5_resize_rejects_oversized_witness :
    Event.rejected 0 Reason.tooLargeForResize ∈ (setSize 7 scenarioD).1.2 ∧
    (0 : Nat) ∉ idsOf (setSize 7 scenarioD).1.1.queue ∧
    ({ id := 1, requested := 5, acquired := 0 } : QueueEntry) ∈
      (setSize 7 scenarioD).1.1.queue := by
  have h := C5_resize_rejects_oversized scenarioD 7 (by decide) (by decide)
  refine ⟨(h.1 { id := 0, requested := 8, acquired := 0 } ?_ (by decide)).1,
    (h.1 { id := 0, requested := 8, acquired := 0 } ?_ (by decide)).2,
    h.2.1 { id := 1, requested := 5, acquired := 0 } ?_ (by decide)⟩ <;> decide

/- Counting permits moved by the dispatch loop. -/

theorem next_count (s : SemState) (hp : ∀ e ∈ s.queue, e.acquired < e.requested)
    (ha : 0 < s.available) (hw : 0 < waiting s) :
    (next s).1.available = s.available - 1 ∧ waiting (next s).1 = waiting s - 1 := by
  obtain ⟨sz, a, q, c⟩ := s
  cases a with
  | zero => simp at ha
  | succ a =>
    cases q with
    | nil => simp [waiting] at hw
    | cons e rest =>
      have he := hp e (List.mem_cons_self e rest)
      by_cases h : e.acquired + 1 = e.requested
      · simp [next, h, waiting]
        omega
      · simp [next, h, waiting]
        omega

theorem nextIter_count : ∀ (k : Nat) (s : SemState),
    (∀ e ∈ s.queue, e.acquired < e.requested) →
    k ≤ s.available → k ≤ waiting s →
    (nextIter k s).1.available = s.available - k ∧
      waiting (nextIter k s).1 = waiting s - k := by
  intro k
  induction k with
  | zero =>
    intro s _ _ _
    exact ⟨by simp [nextIter], by simp [nextIter]⟩
  | succ k ih =>
    intro s hp hka hkw
    have hc := next_count s hp (by omega) (by omega)
    have hrec := ih (next s).1 (unsat_next s hp) (by omega) (by omega)
    refine ⟨?_, ?_⟩
    · show (nextIter k (next s).1).1.available = s.available - (k + 1)
      rw [hrec.1, hc.1]
      omega
    · show waiting (nextIter k (next s).1).1 = waiting s - (k + 1)
      rw [hrec.2, hc.2]
      omega

/-- Claim C6: a resize that grows the pool while available = 0 first sets
available to max(0, available + delta) = newSize - size and the size to the new
size, then dispatches exactly extra = min(waiting, newSize - size) single-permit
grants to the queue heads with no release call: the scan rejects nothing, the
whole resize equals the dispatch loop on the updated state, and exactly extra
permit units leave available and leave the waiting sum. -/
theorem C6_resize_growth (s : SemState) (n : Nat) (hwf : WF s)
    (h0 : s.available = 0) (hg : s.size < n) :
    setSize n s =
      (nextIter (min (waiting s) (n - s.size))
        { s with available := n - s.size, size := n }, none) ∧
    (setSize n s).1.1.size = n ∧
    (setSize n s).1.1.available = (n - s.size) - min (waiting s) (n - s.size) ∧
    waiting (setSize n s).1.1 = waiting s - min (waiting s) (n - s.size) := by
  obtain ⟨hsz, hav, hok, hnd⟩ := hwf
  have hn0 : ¬ n = 0 := by omega
  have hcond : s.available = 0 ∧ s.size < n := ⟨h0, hg⟩
  have havail : (max 0 ((s.available : Int) + (n : Int) - (s.size : Int))).toNat
      = n - s.size := by omega
  have hgrow : growDispatch n s =
      nextIter (min (waiting s) (n - s.size))
        { s with available := n - s.size, size := n } := by
    unfold growDispatch
    rw [if_pos hcond, havail]
  have hcount := nextIter_count (min (waiting s) (n - s.size))
    { s with available := n - s.size, size := n }
    (fun e he => (hok e he).2.1)
    (by simp)
    (by
      show min (waiting s) (n - s.size) ≤ waiting s
      omega)
  have hreq : ∀ e ∈ (growDispatch n s).1.queue, e.requested ≤ s.size := by
    rw [hgrow]
    exact reqLe_nextIter _ _ s.size (fun e he => (hok e he).2.2.1)
  have hfilter : (growDispatch n s).1.queue.filter
      (fun e => decide ((growDispatch n s).1.size < e.requested)) = [] := by
    apply List.filter_eq_nil.mpr
    intro e he
    have h1 := hreq e he
    rw [growDispatch_size]
    simp
    omega
  have hset : setSize n s = (((growDispatch n s).1, (growDispatch n s).2), none) := by
    simp only [setSize, hn0, if_false, hfilter]
    simp [rejectIds, idsOf]
  refine ⟨?_, ?_, ?_, ?_⟩
  · rw [hset, hgrow]
  · rw [hset]
    show (growDispatch n s).1.size = n
    exact growDispatch_size n s
  · rw [hset]
    show (growDispatch n s).1.available = (n - s.size) - min (waiting s) (n - s.size)
    rw [hgrow, hcount.1]
  · rw [hset]
    show waiting (growDispatch n s).1 = waiting s - min (waiting s) (n - s.size)
    rw [hgrow, hcount.2]
    rfl

/-- Claim C6 (witness): growing a fully exhausted Semaphore(1) with one pending
single-permit request to size 3 dispatches exactly min(1, 2) = 1 grant: the
request is satisfied, waiting drops from 1 to 0, and available ends at 1. -/
theorem C6_resize_growth_witness :
    (setSize 3 growState).1.1.size = 3 ∧
    (setSize 3 growState).1.1.available =
      (3 - growState.size) - min (waiting growState) (3 - growState.size) ∧
    waiting (setSize 3 growState).1.1 =
      waiting growState - min (waiting growState) (3 - growState.size) := by
  have h := C6_resize_growth growState 3 (by decide) (by decide) (by decide)
  exact ⟨h.2.1, h.2.2.1, h.2.2.2⟩

/-- Claim C9: the private acquire only subscribes to future abort events of a
supplied signal and never reads its current aborted state; hence for a signal
already aborted before the call, the abort trigger can never fire — the
request is never rejected with Aborted on account of that signal, and the
effective rejection sources are exactly those of a call with no signal. -/
theorem C9_pre_aborted_signal_ignored (sig : AbortSignalModel) (timeoutMs : Option Nat)
    (h : alreadyAborted sig) :
    ¬ canRejectAborted (some sig) timeoutMs ∧
    (∀ tr, (tr ∈ acquireTriggers (some sig) timeoutMs ∧ triggerFires (some sig) tr) ↔
        (tr ∈ acquireTriggers none timeoutMs ∧ triggerFires none tr)) := by
  obtain ⟨t, ht, htneg⟩ := h
  have hnofire : ¬ abortListenerFires sig := by
    rintro ⟨t2, ht2, ht2pos⟩
    rw [ht] at ht2
    injection ht2 with h2
    omega
  constructor
  · rintro ⟨_, hfire⟩
    exact hnofire hfire
  · intro tr
    cases tr with
    | abortEvent =>
      cases timeoutMs <;> simp [acquireTriggers, triggerFires, hnofire]
    | timer ms =>
      cases timeoutMs <;> simp [acquireTriggers, triggerFires]

/-- Claim C9 (witness): a signal aborted at time -1, before the acquire call at
time 0, can never cause an Aborted rejection, and with a 5 ms timeout the
effective rejection sources match those of a signal-free call. -/
theorem C9_pre_aborted_signal_ignored_witness :
    ¬ canRejectAborted (some { abortTime := some (-1) }) (some 5) ∧
    ((RejectTrigger.timer 5 ∈ acquireTriggers (some { abortTime := some (-1) }) (some 5) ∧
        triggerFires (some { abortTime := some (-1) }) (RejectTrigger.timer 5)) ↔
      (RejectTrigger.timer 5 ∈ acquireTriggers none (some 5) ∧
        triggerFires none (RejectTrigger.timer 5))) :=
  ⟨(C9_pre_aborted_signal_ignored { abortTime := some (-1) } (some 5)
      ⟨-1, rfl, by decide⟩).1,
   (C9_pre_aborted_signal_ignored { abortTime := some (-1) } (some 5)
      ⟨-1, rfl, by decide⟩).2 (RejectTrigger.timer 5)⟩

/-- Claim C2 (witness for the amended claim): acquire(2) on a fresh
Semaphore(3) reserves exactly one permit and stays queued. -/
theorem C2_single_step_enqueue_witness :
    acquireOp 2 (initSem 3) =
      (({ size := 3, available := 2,
          queue := [{ id := 0, requested := 2, acquired := 1 }],
          counter := 1 }, []), none) :=
  (C2_single_step_enqueue (initSem 3) 2 (by decide) (by decide) rfl (by decide)).2
    (by decide)

/- Helper lemmas for the FIFO head-of-line property. -/

theorem noResolve_nil (B : Nat) : NoResolve B [] := by
  intro v hv
  simp at hv

theorem noResolve_append {B : Nat} {evs1 evs2 : List Event}
    (h1 : NoResolve B evs1) (h2 : NoResolve B evs2) : NoResolve B (evs1 ++ evs2) := by
  intro v hv
  rcases List.mem_append.mp hv with h | h
  · exact h1 v h
  · exact h2 v h

theorem noResolve_rejected (B i : Nat) (r : Reason) :
    NoResolve B [Event.rejected i r] := by
  intro v hv
  simp at hv

theorem WF_QInv (s : SemState) (h : WF s) : QInv s :=
  ⟨fun e he => (h.2.2.1 e he).2.1, fun e he => (h.2.2.1 e he).2.2.2, h.2.2.2⟩

theorem QInv_next (s : SemState) (h : QInv s) : QInv (next s).1 := by
  obtain ⟨h1, h2, h3⟩ := h
  refine ⟨unsat_next s h1, ?_, (next_ids_sublist s).nodup h3⟩
  intro e he
  have hmem : e.id ∈ idsOf (next s).1.queue := List.mem_map_of_mem QueueEntry.id he
  have hmem2 : e.id ∈ idsOf s.queue := (next_ids_sublist s).subset hmem
  obtain ⟨e2, he2, hid2⟩ := List.mem_map.mp hmem2
  rw [next_counter, ← hid2]
  exact h2 e2 he2

theorem QInv_sub (s s' : SemState) (hqueue : List.Sublist s'.queue s.queue)
    (hcounter : s.counter ≤ s'.counter) (h : QInv s) : QInv s' := by
  refine ⟨fun e he => h.1 e (hqueue.subset he), ?_,
    (hqueue.map QueueEntry.id).nodup h.2.2⟩
  intro e he
  exact lt_of_lt_of_le (h.2.1 e (hqueue.subset he)) hcounter

theorem pack_carry (A : Nat) (e0 : QueueEntry) (s s' : SemState) (evs : List Event)
    (hqueue : s'.queue = s.queue) (hcounter : s.counter ≤ s'.counter)
    (hp : C7Pack A e0 s evs) : C7Pack A e0 s' evs := by
  obtain ⟨hA, hB, hcase⟩ := hp
  refine ⟨lt_of_lt_of_le hA hcounter, lt_of_lt_of_le hB hcounter, ?_⟩
  rw [hqueue]
  exact hcase

theorem next_events (s : SemState) :
    (next s).2 = [] ∨
    ∃ x rest, s.queue = x :: rest ∧
      (next s).2 = [Event.resolved x.id x.requested] := by
  obtain ⟨sz, a, q, c⟩ := s
  cases a with
  | zero => exact Or.inl rfl
  | succ a =>
    cases q with
    | nil => exact Or.inl rfl
    | cons e rest =>
      by_cases h : e.acquired + 1 = e.requested
      · exact Or.inr ⟨e, rest, rfl, by simp [next, h]⟩
      · exact Or.inl (by simp [next, h])

theorem next_cases (s : SemState) (x : QueueEntry) (tail : List QueueEntry)
    (hqe : s.queue = x :: tail) :
    next s = (s, []) ∨
    (∃ a, s.available = a + 1 ∧ x.acquired + 1 = x.requested ∧
      next s = ({ s with available := a, queue := tail },
        [Event.resolved x.id x.requested])) ∨
    (∃ a, s.available = a + 1 ∧ ¬ x.acquired + 1 = x.requested ∧
      next s = ({ s with
                    available := a,
                    queue := { x with acquired := x.acquired + 1 } :: tail }, [])) := by
  obtain ⟨sz, a, q, c⟩ := s
  simp only at hqe
  subst hqe
  cases a with
  | zero => exact Or.inl rfl
  | succ a =>
    by_cases h : x.acquired + 1 = x.requested
    · exact Or.inr (Or.inl ⟨a, rfl, h, by simp [next, h]⟩)
    · exact Or.inr (Or.inr ⟨a, rfl, h, by simp [next, h]⟩)

theorem nodup_cons_ids (x : QueueEntry) (l : List QueueEntry)
    (h : (idsOf (x :: l)).Nodup) : x.id ∉ idsOf l ∧ (idsOf l).Nodup := by
  have h2 : (x.id :: l.map QueueEntry.id).Nodup := by
    simpa only [idsOf, List.map_cons] using h
  exact ⟨(List.nodup_cons.mp h2).1, (List.nodup_cons.mp h2).2⟩

theorem nodup_mid (q1 q2 : List QueueEntry) (e0 : QueueEntry)
    (h : (idsOf (q1 ++ e0 :: q2)).Nodup) :
    (idsOf q1).Nodup ∧ e0.id ∉ idsOf q1 ∧ e0.id ∉ idsOf q2 ∧
      ∀ a ∈ idsOf q1, a ∉ idsOf (e0 :: q2) := by
  have h2 : (idsOf q1 ++ idsOf (e0 :: q2)).Nodup := by
    simpa only [idsOf, List.map_append] using h
  have hdisj := List.disjoint_of_nodup_append h2
  refine ⟨h2.of_append_left, ?_, ?_, fun a ha hm => hdisj ha hm⟩
  · intro hm
    exact hdisj hm (by simp [idsOf])
  · intro hm
    exact (nodup_cons_ids e0 q2 h2.of_append_right).1 hm

theorem removeEntry_append_not (i : Nat) : ∀ (q1 q2 : List QueueEntry),
    (∀ x ∈ q1, x.id ≠ i) →
    removeEntry i (q1 ++ q2) = q1 ++ removeEntry i q2 := by
  intro q1
  induction q1 with
  | nil => intro q2 _; rfl
  | cons x q1' ih =>
    intro q2 h
    have hx : ¬ x.id = i := h x (List.mem_cons_self x q1')
    simp [removeEntry, hx, ih q2 (fun y hy => h y (List.mem_cons_of_mem x hy))]

theorem removeEntry_append_mem (i : Nat) : ∀ (q1 q2 : List QueueEntry),
    i ∈ idsOf q1 → removeEntry i (q1 ++ q2) = removeEntry i q1 ++ q2 := by
  intro q1
  induction q1 with
  | nil => intro q2 hm; simp [idsOf] at hm
  | cons x q1' ih =>
    intro q2 hm
    by_cases hx : x.id = i
    · simp [removeEntry, hx]
    · have hm2 : i ∈ idsOf q1' := by
        simp [idsOf] at hm
        rcases hm with hm | hm
        · exact absurd hm.symm hx
        · simpa [idsOf] using hm
      simp [removeEntry, hx, ih q2 hm2]

theorem pack_next (A : Nat) (e0 : QueueEntry) (s : SemState) (evs : List Event)
    (hq : QInv s) (hp : C7Pack A e0 s evs) :
    C7Pack A e0 (next s).1 (evs ++ (next s).2) := by
  obtain ⟨hA, hB, hcase⟩ := hp
  refine ⟨by rw [next_counter]; exact hA, by rw [next_counter]; exact hB, ?_⟩
  rcases hcase with ⟨q1, q2, hqe, hAq1, hNR⟩ | ⟨hBout, hNR⟩ | hAout
  · cases q1 with
    | nil => simp [idsOf] at hAq1
    | cons x q1' =>
      have hqe2 : s.queue = x :: (q1' ++ e0 :: q2) := by simpa using hqe
      have hxnot : x.id ∉ idsOf (q1' ++ e0 :: q2) := by
        have hnd := hq.2.2
        rw [hqe2] at hnd
        exact (nodup_cons_ids x _ hnd).1
      have hxB : x.id ≠ e0.id := by
        intro heq
        exact hxnot (by rw [heq]; simp [idsOf])
      have hsingle : NoResolve e0.id [Event.resolved x.id x.requested] := by
        intro v hv
        simp at hv
        exact hxB hv.1.symm
      rcases next_cases s x (q1' ++ e0 :: q2) hqe2 with hid | ⟨a, _, _, heq⟩ | ⟨a, _, _, heq⟩
      · rw [hid]
        exact Or.inl ⟨x :: q1', q2, hqe, hAq1,
          noResolve_append hNR (noResolve_nil _)⟩
      · rw [heq]
        have hAsplit : A = x.id ∨ A ∈ idsOf q1' := by
          simpa [idsOf] using hAq1
        rcases hAsplit with hAx | hAq1'
        · refine Or.inr (Or.inr ?_)
          intro hm
          apply hxnot
          rw [← hAx]
          exact hm
        · exact Or.inl ⟨q1', q2, rfl, hAq1', noResolve_append hNR hsingle⟩
      · rw [heq]
        refine Or.inl ⟨{ x with acquired := x.acquired + 1 } :: q1', q2, rfl, ?_,
          noResolve_append hNR (noResolve_nil _)⟩
        simpa [idsOf] using hAq1
  · refine Or.inr (Or.inl ⟨fun hm => hBout ((next_ids_sublist s).subset hm), ?_⟩)
    refine noResolve_append hNR ?_
    rcases next_events s with h | ⟨x, rest, hqe, hev⟩
    · rw [h]; exact noResolve_nil _
    · rw [hev]
      intro v hv
      simp at hv
      apply hBout
      rw [hqe]
      simp [idsOf, hv.1]
  · exact Or.inr (Or.inr (fun hm => hAout ((next_ids_sublist s).subset hm)))

/- Step lemmas: every primitive of the implementation preserves the invariant
pair (queue well-formedness, head-of-line tracking). -/

theorem pack_append_nil (A : Nat) (e0 : QueueEntry) (s : SemState) (evs : List Event)
    (hp : C7Pack A e0 s evs) : C7Pack A e0 s (evs ++ []) := by
  rw [List.append_nil]
  exact hp

theorem step_next (A : Nat) (e0 : QueueEntry) (s : SemState) (evs : List Event)
    (h : QInv s ∧ C7Pack A e0 s evs) :
    QInv (next s).1 ∧ C7Pack A e0 (next s).1 (evs ++ (next s).2) :=
  ⟨QInv_next s h.1, pack_next A e0 s evs h.1 h.2⟩

theorem step_releaseUnit (A : Nat) (e0 : QueueEntry) (s : SemState) (evs : List Event)
    (h : QInv s ∧ C7Pack A e0 s evs) :
    QInv (releaseUnit s).1.1 ∧
      C7Pack A e0 (releaseUnit s).1.1 (evs ++ (releaseUnit s).1.2) := by
  unfold releaseUnit
  by_cases hf : s.available = s.size
  · rw [if_pos hf]
    exact ⟨h.1, by simpa using h.2⟩
  · rw [if_neg hf]
    have hq1 : QInv { s with available := s.available + 1 } :=
      QInv_sub s _ (List.Sublist.refl _) (le_refl _) h.1
    have hp1 : C7Pack A e0 { s with available := s.available + 1 } evs :=
      pack_carry A e0 s _ evs rfl (le_refl _) h.2
    exact ⟨QInv_next _ hq1, pack_next A e0 _ evs hq1 hp1⟩

theorem step_releaseLoop (A : Nat) (e0 : QueueEntry) : ∀ (k : Nat) (s : SemState)
    (evs : List Event), QInv s → C7Pack A e0 s evs →
    QInv (releaseLoop k s).1.1 ∧
      C7Pack A e0 (releaseLoop k s).1.1 (evs ++ (releaseLoop k s).1.2) := by
  intro k
  induction k with
  | zero =>
    intro s evs hq hp
    exact ⟨hq, pack_append_nil A e0 s evs hp⟩
  | succ k ih =>
    intro s evs hq hp
    have hstep := step_releaseUnit A e0 s evs ⟨hq, hp⟩
    rcases hr : releaseUnit s with ⟨⟨s1, ev1⟩, err⟩
    rw [hr] at hstep
    cases err with
    | some e =>
      have heq : releaseLoop (k + 1) s = ((s1, ev1), some e) := by
        unfold releaseLoop
        rw [hr]
      rw [heq]
      exact hstep
    | none =>
      have hrec := ih s1 (evs ++ ev1) hstep.1 hstep.2
      have heq : releaseLoop (k + 1) s =
          (((releaseLoop k s1).1.1, ev1 ++ (releaseLoop k s1).1.2),
            (releaseLoop k s1).2) := by
        simp only [releaseLoop]
        rw [hr]
      rw [heq]
      refine ⟨hrec.1, ?_⟩
      rw [← List.append_assoc]
      exact hrec.2

theorem step_release (A : Nat) (e0 : QueueEntry) (count : Nat) (s : SemState)
    (evs : List Event) (hq : QInv s) (hp : C7Pack A e0 s evs) :
    QInv (release count s).1.1 ∧
      C7Pack A e0 (release count s).1.1 (evs ++ (release count s).1.2) := by
  unfold release
  by_cases hv : 1 ≤ count ∧ count ≤ s.size
  · rw [if_pos hv]
    exact step_releaseLoop A e0 count s evs hq hp
  · rw [if_neg hv]
    exact ⟨hq, by simpa using hp⟩

theorem step_rejectEntry (A : Nat) (e0 : QueueEntry) (i : Nat) (r : Reason)
    (s : SemState) (evs : List Event) (hq : QInv s) (hp : C7Pack A e0 s evs) :
    QInv (rejectEntry i r s).1 ∧
      C7Pack A e0 (rejectEntry i r s).1 (evs ++ (rejectEntry i r s).2) := by
  unfold rejectEntry
  rcases hfind : s.queue.find? (fun e => decide (e.id = i)) with _ | e
  · rw [hfind]
    exact ⟨hq, by simpa using hp⟩
  · rw [hfind]
    have hmem : e ∈ s.queue := List.mem_of_find?_eq_some hfind
    have hne : ¬ e.acquired = e.requested := Nat.ne_of_lt (hq.1 e hmem)
    simp only [hne, if_false]
    have hsub := removeEntry_sublist s.queue i
    refine ⟨QInv_sub s _ hsub (le_refl _) hq, ?_⟩
    obtain ⟨hA, hB, hcase⟩ := hp
    refine ⟨hA, hB, ?_⟩
    rcases hcase with ⟨q1, q2, hqe, hAq1, hNR⟩ | ⟨hBout, hNR⟩ | hAout
    · have hndsplit := nodup_mid q1 q2 e0 (by rw [← hqe]; exact hq.2.2)
      by_cases hi1 : i ∈ idsOf q1
      · have hremeq : removeEntry i s.queue = removeEntry i q1 ++ (e0 :: q2) := by
          rw [hqe, removeEntry_append_mem i q1 (e0 :: q2) hi1]
        by_cases hAi : A = i
        · refine Or.inr (Or.inr ?_)
          intro hm
          have hm2 : A ∈ idsOf (removeEntry i s.queue) := hm
          rw [hremeq] at hm2
          have hm3 : A ∈ idsOf (removeEntry i q1) ∨ A ∈ idsOf (e0 :: q2) := by
            simpa [idsOf] using hm2
          rcases hm3 with hm3 | hm3
          · rw [removeEntry_eq_filter q1 hndsplit.1 i] at hm3
            obtain ⟨e2, he2, hid2⟩ := List.mem_map.mp hm3
            have hpred := (List.mem_filter.mp he2).2
            simp at hpred
            exact hpred (by rw [hid2, hAi])
          · exact hndsplit.2.2.2 A hAq1 hm3
        · refine Or.inl ⟨removeEntry i q1, q2, hremeq, ?_,
            noResolve_append hNR (noResolve_rejected _ i r)⟩
          rw [removeEntry_eq_filter q1 hndsplit.1 i]
          obtain ⟨e2, he2, hid2⟩ := List.mem_map.mp hAq1
          refine List.mem_map.mpr ⟨e2, List.mem_filter.mpr ⟨he2, ?_⟩, hid2⟩
          simp
          intro hei
          exact hAi (by rw [← hid2, hei])
      · have hq1ne : ∀ x ∈ q1, x.id ≠ i :=
          fun x hx hxi => hi1 (by rw [← hxi]; exact List.mem_map_of_mem _ hx)
        by_cases hBi : e0.id = i
        · have hremeq : removeEntry i s.queue = q1 ++ q2 := by
            rw [hqe, removeEntry_append_not i q1 (e0 :: q2) hq1ne]
            simp [removeEntry, hBi]
          refine Or.inr (Or.inl ⟨?_, noResolve_append hNR (noResolve_rejected _ i r)⟩)
          intro hm
          have hm2 : e0.id ∈ idsOf (q1 ++ q2) := by
            have hm' : e0.id ∈ idsOf (removeEntry i s.queue) := hm
            rwa [hremeq] at hm'
          have hm3 : e0.id ∈ idsOf q1 ∨ e0.id ∈ idsOf q2 := by
            simpa [idsOf] using hm2
          rcases hm3 with hm3 | hm3
          · exact hndsplit.2.1 hm3
          · exact hndsplit.2.2.1 hm3
        · have hremeq : removeEntry i s.queue = q1 ++ (e0 :: removeEntry i q2) := by
            rw [hqe, removeEntry_append_not i q1 (e0 :: q2) hq1ne]
            simp [removeEntry, hBi]
          exact Or.inl ⟨q1, removeEntry i q2, hremeq, hAq1,
            noResolve_append hNR (noResolve_rejected _ i r)⟩
    · refine Or.inr (Or.inl ⟨?_, noResolve_append hNR (noResolve_rejected _ i r)⟩)
      intro hm
      exact hBout ((hsub.map QueueEntry.id).subset hm)
    · refine Or.inr (Or.inr ?_)
      intro hm
      exact hAout ((hsub.map QueueEntry.id).subset hm)

theorem step_rejectIds (A : Nat) (e0 : QueueEntry) (r : Reason) :
    ∀ (L : List Nat) (s : SemState) (evs : List Event),
    QInv s → C7Pack A e0 s evs →
    QInv (rejectIds r L s).1 ∧
      C7Pack A e0 (rejectIds r L s).1 (evs ++ (rejectIds r L s).2) := by
  intro L
  induction L with
  | nil =>
    intro s evs hq hp
    exact ⟨hq, pack_append_nil A e0 s evs hp⟩
  | cons i rest ih =>
    intro s evs hq hp
    have h1 := step_rejectEntry A e0 i r s evs hq hp
    have h2 := ih (rejectEntry i r s).1 (evs ++ (rejectEntry i r s).2) h1.1 h1.2
    have heq : rejectIds r (i :: rest) s =
        ((rejectIds r rest (rejectEntry i r s).1).1,
          (rejectEntry i r s).2 ++ (rejectIds r rest (rejectEntry i r s).1).2) := rfl
    rw [heq]
    refine ⟨h2.1, ?_⟩
    rw [← List.append_assoc]
    exact h2.2

theorem acquireOp_pos (count : Nat) (s : SemState)
    (hv : 1 ≤ count ∧ count ≤ s.size) :
    acquireOp count s = (next (pushState count s), none) := by
  unfold acquireOp pushState
  rw [if_pos hv]

theorem step_acquireOp (A : Nat) (e0 : QueueEntry) (count : Nat) (s : SemState)
    (evs : List Event) (hq : QInv s) (hp : C7Pack A e0 s evs) :
    QInv (acquireOp count s).1.1 ∧
      C7Pack A e0 (acquireOp count s).1.1 (evs ++ (acquireOp count s).1.2) := by
  by_cases hv : 1 ≤ count ∧ count ≤ s.size
  · rw [acquireOp_pos count s hv]
    have hq1 : QInv (pushState count s) := by
      refine ⟨?_, ?_, ?_⟩
      · intro e he
        rcases List.mem_append.mp he with he | he
        · exact hq.1 e he
        · simp at he
          subst he
          exact hv.1
      · intro e he
        rcases List.mem_append.mp he with he | he
        · exact lt_trans (hq.2.1 e he) (Nat.lt_succ_self _)
        · simp at he
          subst he
          exact Nat.lt_succ_self s.counter
      · have hfresh : s.counter ∉ s.queue.map QueueEntry.id := by
          intro hm
          obtain ⟨e2, he2, hid2⟩ := List.mem_map.mp hm
          exact absurd hid2 (Nat.ne_of_lt (hq.2.1 e2 he2))
        have hnd : (s.queue.map QueueEntry.id ++ [s.counter]).Nodup := by
          refine List.Nodup.append hq.2.2 (List.nodup_singleton _) ?_
          intro a ha hb
          simp at hb
          subst hb
          exact hfresh ha
        simpa [idsOf, pushState] using hnd
    have hp1 : C7Pack A e0 (pushState count s) evs := by
      obtain ⟨hA, hB, hcase⟩ := hp
      refine ⟨lt_trans hA (Nat.lt_succ_self _), lt_trans hB (Nat.lt_succ_self _), ?_⟩
      rcases hcase with ⟨q1, q2, hqe, hAq1, hNR⟩ | ⟨hBout, hNR⟩ | hAout
      · refine Or.inl ⟨q1,
          q2 ++ [{ id := s.counter, requested := count, acquired := 0 }], ?_, hAq1, hNR⟩
        show s.queue ++ _ = q1 ++ e0 :: (q2 ++ _)
        rw [hqe]
        simp
      · refine Or.inr (Or.inl ⟨?_, hNR⟩)
        intro hm
        have hm2 : e0.id ∈ idsOf s.queue ∨ e0.id = s.counter := by
          simpa [idsOf, pushState] using hm
        rcases hm2 with hm2 | hm2
        · exact hBout hm2
        · exact absurd hm2 (Nat.ne_of_lt hB)
      · refine Or.inr (Or.inr ?_)
        intro hm
        have hm2 : A ∈ idsOf s.queue ∨ A = s.counter := by
          simpa [idsOf, pushState] using hm
        rcases hm2 with hm2 | hm2
        · exact hAout hm2
        · exact absurd hm2 (Nat.ne_of_lt hA)
    exact step_next A e0 (pushState count s) evs ⟨hq1, hp1⟩
  · unfold acquireOp
    rw [if_neg hv]
    exact ⟨hq, by simpa using hp⟩

theorem step_nextIter (A : Nat) (e0 : QueueEntry) : ∀ (k : Nat) (s : SemState)
    (evs : List Event), QInv s → C7Pack A e0 s evs →
    QInv (nextIter k s).1 ∧
      C7Pack A e0 (nextIter k s).1 (evs ++ (nextIter k s).2) := by
  intro k
  induction k with
  | zero =>
    intro s evs hq hp
    exact ⟨hq, pack_append_nil A e0 s evs hp⟩
  | succ k ih =>
    intro s evs hq hp
    have h1 := step_next A e0 s evs ⟨hq, hp⟩
    have h2 := ih (next s).1 (evs ++ (next s).2) h1.1 h1.2
    have heq : nextIter (k + 1) s =
        ((nextIter k (next s).1).1, (next s).2 ++ (nextIter k (next s).1).2) := rfl
    rw [heq]
    refine ⟨h2.1, ?_⟩
    rw [← List.append_assoc]
    exact h2.2

theorem step_growDispatch (A : Nat) (e0 : QueueEntry) (n : Nat) (s : SemState)
    (evs : List Event) (hq : QInv s) (hp : C7Pack A e0 s evs) :
    QInv (growDispatch n s).1 ∧
      C7Pack A e0 (growDispatch n s).1 (evs ++ (growDispatch n s).2) := by
  have hqm : ∀ (v m : Nat), QInv { s with available := v, size := m } :=
    fun v m => QInv_sub s _ (List.Sublist.refl _) (le_refl _) hq
  have hpm : ∀ (v m : Nat), C7Pack A e0 { s with available := v, size := m } evs :=
    fun v m => pack_carry A e0 s _ evs rfl (le_refl _) hp
  unfold growDispatch
  exact step_nextIter A e0 _ _ evs (hqm _ _) (hpm _ _)

theorem setSize_eq (n : Nat) (s : SemState) (hn : ¬ n = 0) :
    setSize n s =
      (((rejectIds Reason.tooLargeForResize
          (idsOf ((growDispatch n s).1.queue.filter
            (fun e => decide ((growDispatch n s).1.size < e.requested))))
          (growDispatch n s).1).1,
        (growDispatch n s).2 ++
          (rejectIds Reason.tooLargeForResize
            (idsOf ((growDispatch n s).1.queue.filter
              (fun e => decide ((growDispatch n s).1.size < e.requested))))
            (growDispatch n s).1).2), none) := by
  unfold setSize
  rw [if_neg hn]

theorem step_setSize (A : Nat) (e0 : QueueEntry) (n : Nat) (s : SemState)
    (evs : List Event) (hq : QInv s) (hp : C7Pack A e0 s evs) :
    QInv (setSize n s).1.1 ∧
      C7Pack A e0 (setSize n s).1.1 (evs ++ (setSize n s).1.2) := by
  by_cases hn : n = 0
  · unfold setSize
    rw [if_pos hn]
    exact ⟨hq, by simpa using hp⟩
  · rw [setSize_eq n s hn]
    have h1 := step_growDispatch A e0 n s evs hq hp
    have h2 := step_rejectIds A e0 Reason.tooLargeForResize
      (idsOf ((growDispatch n s).1.queue.filter
        (fun e => decide ((growDispatch n s).1.size < e.requested))))
      (growDispatch n s).1 (evs ++ (growDispatch n s).2) h1.1 h1.2
    refine ⟨h2.1, ?_⟩
    rw [← List.append_assoc]
    exact h2.2

theorem step_applyOp (A : Nat) (e0 : QueueEntry) (op : Op) (s : SemState)
    (evs : List Event) (hq : QInv s) (hp : C7Pack A e0 s evs) :
    QInv (applyOp op s).1.1 ∧
      C7Pack A e0 (applyOp op s).1.1 (evs ++ (applyOp op s).1.2) := by
  cases op with
  | acquire c => exact step_acquireOp A e0 c s evs hq hp
  | release c => exact step_release A e0 c s evs hq hp
  | setSize n => exact step_setSize A e0 n s evs hq hp
  | clearQueue => exact step_rejectIds A e0 Reason.cleared (idsOf s.queue) s evs hq hp
  | cancel i r => exact step_rejectEntry A e0 i r s evs hq hp

theorem single_split_map (B : Nat) (q : List QueueEntry) (hm : B ∈ idsOf q) :
    ∃ l1 eb l2, q = l1 ++ eb :: l2 ∧ eb.id = B := by
  obtain ⟨eb, hmem, hid⟩ := List.mem_map.mp hm
  obtain ⟨l1, l2, rfl⟩ := List.append_of_mem hmem
  exact ⟨l1, eb, l2, rfl, hid⟩

theorem pair_split (A B : Nat) : ∀ (q : List QueueEntry),
    List.Sublist [A, B] (idsOf q) →
    ∃ q1 ea q2 eb q3, q = q1 ++ ea :: (q2 ++ eb :: q3) ∧ ea.id = A ∧ eb.id = B := by
  intro q
  induction q with
  | nil =>
    intro h
    simp [idsOf] at h
  | cons x rest ih =>
    intro h
    have h2 : List.Sublist [A, B] (x.id :: idsOf rest) := by simpa [idsOf] using h
    cases h2 with
    | cons _ htail =>
      obtain ⟨q1, ea, q2, eb, q3, heq, hA, hB⟩ := ih htail
      exact ⟨x :: q1, ea, q2, eb, q3, by rw [heq]; rfl, hA, hB⟩
    | cons₂ _ htail =>
      have hBmem : B ∈ idsOf rest := htail.subset (List.mem_singleton_self B)
      obtain ⟨l1, eb, l2, heq, hB⟩ := single_split_map B rest hBmem
      exact ⟨[], x, l1, eb, l2, by rw [heq]; rfl, rfl, hB⟩

/-- Claim C7: FIFO head-of-line discipline.  For every well-formed state and
every operation, if request A is queued strictly ahead of request B, then B
receives a permit during the operation (its acquired count grows or it is
resolved) only if A has left the queue during that same operation (resolved or
rejected); moreover each dispatch step touches only the current queue head,
leaving the tail entries exactly in place. -/
theorem C7_fifo_order (op : Op) (s : SemState) (A B : Nat) (hwf : WF s)
    (hAB : List.Sublist [A, B] (idsOf s.queue)) :
    (grantedDuring B s (applyOp op s).1 → A ∉ idsOf (applyOp op s).1.1.queue) ∧
    (∀ x xs, s.queue = x :: xs →
      (next s).1.queue = xs ∨
        ∃ k, (next s).1.queue = { x with acquired := k } :: xs) := by
  have hq := WF_QInv s hwf
  obtain ⟨q1, ea, q2, eb, q3, heq, hA, hB⟩ := pair_split A B s.queue hAB
  have heaMem : ea ∈ s.queue := by rw [heq]; simp
  have hebMem : eb ∈ s.queue := by rw [heq]; simp
  have hAc : A < s.counter := by rw [← hA]; exact hq.2.1 ea heaMem
  have hBc : B < s.counter := by rw [← hB]; exact hq.2.1 eb hebMem
  have hpack0 : C7Pack A eb s [] := by
    refine ⟨hAc, by rw [hB]; exact hBc,
      Or.inl ⟨q1 ++ ea :: q2, q3, ?_, ?_, noResolve_nil _⟩⟩
    · rw [heq]
      simp
    · simp [idsOf, hA]
  have hfinal := step_applyOp A eb op s [] hq hpack0
  obtain ⟨hA', hB', hcase⟩ := hfinal.2
  constructor
  · intro hgrant
    rcases hcase with ⟨p1, p2, hqe, hAp1, hNR⟩ | ⟨hBout, hNR⟩ | hAout
    · exfalso
      rcases hgrant with ⟨e0', he0'm, e1, he1m, hid0, hid1, hlt⟩ | ⟨v, hv⟩
      · have hebMemF : eb ∈ (applyOp op s).1.1.queue := by rw [hqe]; simp
        have he1 : e1 = eb :=
          entries_inj _ hfinal.1.2.2 e1 eb he1m hebMemF (by rw [hid1, hB])
        have he0' : e0' = eb :=
          entries_inj _ hq.2.2 e0' eb he0'm hebMem (by rw [hid0, hB])
        rw [he1, he0'] at hlt
        exact lt_irrefl _ hlt
      · exact hNR v (by rw [hB]; simpa using hv)
    · exfalso
      rcases hgrant with ⟨e0', he0'm, e1, he1m, hid0, hid1, hlt⟩ | ⟨v, hv⟩
      · exact hBout (by
          rw [hB, ← hid1]
          exact List.mem_map_of_mem _ he1m)
      · exact hNR v (by rw [hB]; simpa using hv)
    · exact hAout
  · intro x xs hqe
    rcases next_cases s x xs hqe with hid | ⟨a, _, _, heq2⟩ | ⟨a, _, _, heq2⟩
    · right
      refine ⟨x.acquired, ?_⟩
      rw [hid, hqe]
    · left
      rw [heq2]
    · right
      exact ⟨x.acquired + 1, by rw [heq2]⟩

/-- Claim C7 (witness): on the concrete state with a partially granted head
(two permits requested, one held, id 0) and a single-permit request (id 1)
behind it, release(2) grants to the second request — it is resolved during the
operation — and therefore the head request has left the queue. -/
theorem C7_fifo_order_witness :
    (0 : Nat) ∉ idsOf (applyOp (Op.release 2) fifoState).1.1.queue :=
  (C7_fifo_order (Op.release 2) fifoState 0 1 (by decide) (by decide)).1
    (Or.inr ⟨1, by decide⟩)

end Semasync
